import Mathlib

/-! # The five-stage encryption pipeline of `p2/main.c`

A shallow embedding of the bounded queue, the cipher and the five pipeline
stages of `p2/main.c`, followed by the properties proved about them.

Conventions of the embedding

* `char` is the signed 8-bit type of the targets on which the program
  terminates (`cur == EOF` in `readInput` can only hold for a signed `char`);
  a `char` value is an `Int` in `-128 .. 127` and `toChar` is the conversion
  from `int`.
* `int` values (`count`, `capacity`, the flags of a node, the cipher state)
  are `Int`; none of them gets near the 32-bit limits.
* A `queue` holds the chain of nodes linked from `head` through `prev`, oldest
  first, as a list; `tail` is the last node of that chain.
* A histogram is its 255 declared entries; an increment at an index outside
  `0 .. 254` leaves them as they are and is recorded aside.
* The five threads are a step relation on the shared data: a step of a thread is
  the stretch of its loop from one `sem_wait` to the next, and it can be taken
  when the semaphore waited on is not 0.
-/

namespace P2

/-! ## Characters -/

/-- The value of `EOF` in `<stdio.h>`. -/
def EOF : Int := -1

/-- Conversion of an `int` to (signed, 8-bit) `char`. -/
def toChar (v : Int) : Int := (v + 128) % 256 - 128

/-- The test `(cVal >= 65 && cVal <= 90) || (cVal >= 97 && cVal <= 122)` of `encrypt`. -/
def isLetter (cVal : Int) : Bool :=
  (decide (65 ≤ cVal) && decide (cVal ≤ 90)) || (decide (97 ≤ cVal) && decide (cVal ≤ 122))

/-! ## The cipher -/

/-- The function `encrypt(char c, int* s)`: the result is the returned character together
with the value left in `*s`.  When `c` is a letter and `*s` matches no `case` of the
`switch`, control leaves the function without a `return`; that is `none`. -/
def encrypt (c : Int) (s : Int) : Option (Int × Int) :=
  let cVal : Int := c
  if isLetter cVal then
    if s = -1 then
      -- case -1: decrease with wraparound
      let cVal := if cVal = 65 then 90 else if cVal = 97 then 122 else cVal - 1
      some (toChar cVal, 0)
    else if s = 0 then
      -- case 0: leave
      some (c, 1)
    else if s = 1 then
      -- case 1: increase with wraparound
      let cVal := if cVal = 90 then 65 else if cVal = 122 then 97 else cVal + 1
      some (toChar cVal, -1)
    else
      none
  else
    some (c, s)

/-- The guarded call of `encryptInput`:
`if ( curIn->c != EOF && curIn->c != '\n' ) curIn->c = encrypt(curIn->c, &s);`
giving the character left in the node and the value left in `s`. -/
def encryptGuarded (c : Int) (s : Int) : Option (Int × Int) :=
  if c ≠ EOF ∧ c ≠ 10 then encrypt c s else some (c, s)

/-- The transform stage applied to a stream of characters in order, the state `s`
threaded from one character to the next as the local `s` of `encryptInput` is. -/
def cipherStream : List Int → Int → Option (List Int × Int)
  | [], s => some ([], s)
  | c :: cs, s =>
    match encryptGuarded c s with
    | none => none
    | some (c', s') =>
      match cipherStream cs s' with
      | none => none
      | some (out, sEnd) => some (c' :: out, sEnd)

/-! ### Reference description of the cipher -/

/-- First letter of the alphabet (upper or lower case) the letter `c` belongs to. -/
def alphaBase (c : Int) : Int := if c ≤ 90 then 65 else 97

/-- The letter `c` moved `k` positions circularly inside its own 26-letter alphabet. -/
def shiftLetter (c : Int) (k : Int) : Int := alphaBase c + (c - alphaBase c + k) % 26

/-- A letter moved one position forward, `Z` to `A` and `z` to `a`. -/
def shiftForward (c : Int) : Int := if c = 90 then 65 else if c = 122 then 97 else c + 1

/-- A letter moved one position backward, `A` to `Z` and `a` to `z`. -/
def shiftBackward (c : Int) : Int := if c = 65 then 90 else if c = 97 then 122 else c - 1

/-- The cycle `+1 → -1 → 0 → +1` of the cipher state. -/
def nextState (s : Int) : Int := if s = 1 then -1 else if s = -1 then 0 else 1

/-- The state in force for the `j`-th letter of a stream ciphered from state `+1`. -/
def stateAt (j : Nat) : Int := if j % 3 = 0 then 1 else if j % 3 = 1 then -1 else 0

/-- Number of ASCII letters in a stream. -/
def letterCount (cs : List Int) : Nat := (cs.filter isLetter).length

/-- The expected output of a stream whose first letter is the `k`-th letter ciphered. -/
def cycleCipher : Nat → List Int → List Int
  | _, [] => []
  | k, c :: cs =>
    if isLetter c then shiftLetter c (stateAt k) :: cycleCipher (k + 1) cs
    else c :: cycleCipher k cs

/-! ## The bounded queue -/

/-- A `node`: one character of a buffer with its two flags.  The link `prev` is the
position of the node in the list of its queue. -/
structure node where
  c : Int
  counted : Int
  encrypted : Int
deriving DecidableEq, Repr

/-- A `queue`: `items` is the chain of nodes from `head` (first) to `tail` (last). -/
structure queue where
  items : List node
  capacity : Int
  count : Int
deriving DecidableEq, Repr

/-- The function `enqueue(queue* q, char c)`: the queue left behind and the returned `int`. -/
def enqueue (q : queue) (c : Int) : queue × Int :=
  if q.count = q.capacity then
    (q, 0)
  else
    let newChar : node := { c := c, counted := 0, encrypted := 0 }
    let items :=
      if q.count = 0 then
        -- head = tail = newChar
        [newChar]
      else
        -- tail->prev = newChar; tail = newChar
        q.items ++ [newChar]
    ({ q with items := items, count := q.count + 1 }, 1)

/-- The function `dequeue(queue* q)`: the queue left behind and the returned node
(`none` for `NULL`).  With `count != 0` and no node at `head` the C code reads through an
invalid pointer; no queue built by `enqueue` and `dequeue` is in that state, and the
embedding returns `none` there. -/
def dequeue (q : queue) : queue × Option node :=
  if q.count = 0 then
    (q, none)
  else
    match q.items with
    | [] => (q, none)
    | hd :: rest =>
      let curNode : node := { c := hd.c, counted := hd.counted, encrypted := hd.encrypted }
      ({ q with items := rest, count := q.count - 1 }, some curNode)

/-- The queue as `main` initialises it: `capacity = bufSize`, `count = 0`. -/
def initQueue (bufSize : Int) : queue := { items := [], capacity := bufSize, count := 0 }

/-- A queue whose `count` is the number of nodes linked from `head`. -/
def queue.WF (q : queue) : Prop := q.count = (q.items.length : Int)

/-- One call on a queue: `enqueue` of a character, or `dequeue`. -/
inductive QOp where
  | enq (c : Int)
  | deq
deriving DecidableEq, Repr

/-- Record of a run of calls: the queue, the characters of the successful `enqueue`s and
the characters of the nodes returned by `dequeue`, both in call order. -/
structure QTrace where
  q : queue
  accepted : List Int
  returned : List Int
deriving DecidableEq, Repr

/-- One call applied to a queue, the trace extended by what the call did. -/
def applyOp (t : QTrace) : QOp → QTrace
  | QOp.enq c =>
    let r := enqueue t.q c
    { q := r.1, accepted := if r.2 = 1 then t.accepted ++ [c] else t.accepted,
      returned := t.returned }
  | QOp.deq =>
    let r := dequeue t.q
    { q := r.1, accepted := t.accepted,
      returned := match r.2 with
        | some n => t.returned ++ [n.c]
        | none => t.returned }

/-- A sequence of calls applied, in order, to the queue `main` initialises. -/
def runOps (bufSize : Int) (ops : List QOp) : QTrace :=
  ops.foldl applyOp { q := initQueue bufSize, accepted := [], returned := [] }

/-! ## The histograms -/

/-- A histogram `int inputCount[255]` / `int outputCount[255]`: `cells` are the 255
declared entries (occurrence counts, which start at 0 and are only incremented); `stray`
lists, in order, the indices outside `0 .. 254` at which an increment was made. -/
structure histogram where
  cells : List Nat
  stray : List Int
deriving DecidableEq, Repr

/-- Entry `i` of a list of counts incremented. -/
def incrAt : List Nat → Nat → List Nat
  | [], _ => []
  | x :: xs, 0 => (x + 1) :: xs
  | x :: xs, i + 1 => x :: incrAt xs i

/-- The statement `inputCount[cur->c] = inputCount[cur->c] + 1` (the same on
`outputCount`): the index is the `char` value itself. -/
def histogram.bump (h : histogram) (c : Int) : histogram :=
  if 0 ≤ c ∧ c < 255 then { h with cells := incrAt h.cells c.toNat }
  else { h with stray := h.stray ++ [c] }

/-- The zero-initialised global array. -/
def emptyHistogram : histogram := { cells := List.replicate 255 0, stray := [] }

/-- Sum of all entries of a histogram. -/
def histogram.total (h : histogram) : Nat := h.cells.sum

/-! ## The report of `main` -/

/-- The loop `for(i = 0; i < 255; i++ ) if ( inputCount[i] > 0 && ((char) i) != '\n' )
printf("%c %d \n",(char) i, inputCount[i]);` from index `i` on, `n` indices left.  The
array is read through `count`; a printed line is the pair of its character and its
number. -/
def reportFrom (count : Nat → Nat) : Nat → Nat → List (Int × Nat)
  | _, 0 => []
  | i, n + 1 =>
    if 0 < count i ∧ toChar (i : Int) ≠ 10 then
      (toChar (i : Int), count i) :: reportFrom count (i + 1) n
    else
      reportFrom count (i + 1) n

/-- The lines `main` prints for one histogram. -/
def reportLines (count : Nat → Nat) : List (Int × Nat) := reportFrom count 0 255

/-- The listing described for a report: one line, character and number, for each byte
value below `bound` with a nonzero count that is not the line terminator, in ascending
order. -/
def listing (bound : Nat) (count : Nat → Nat) : List (Int × Nat) :=
  ((List.range bound).filter (fun (v : Nat) => decide (count v ≠ 0) && decide (v ≠ 10))).map
    (fun (v : Nat) => (toChar (v : Int), count v))

/-- The lines `main` prints for a histogram of the pipeline. -/
def histogram.report (h : histogram) : List (Int × Nat) :=
  reportLines (fun i => h.cells.getD i 0)

/-! ## The five stages -/

/-- The call `fgetc(inFile)` on the bytes still unread: the returned `int` (`EOF` at the
end of the file) and the bytes left. -/
def fgetc : List Nat → Int × List Nat
  | [] => (EOF, [])
  | b :: rest => ((b : Int), rest)

/-- The scan `while ( cur != NULL )` of `countInput` and `countOutput` from `head`: the
first node not yet counted is marked counted; the result is its character and the chain
after the marking, or `none` when every node is counted (the end of the list stands for
the `NULL` that stops the scan). -/
def countScan : List node → Option (Int × List node)
  | [] => none
  | n :: rest =>
    if n.counted = 0 then
      some (n.c, { n with counted := 1 } :: rest)
    else
      match countScan rest with
      | none => none
      | some (c, rest') => some (c, n :: rest')

/-- The scan `while ( curIn != NULL )` of `encryptInput` from `head`: the first node that
is counted and not encrypted gets its character ciphered (guarded call) and is marked
encrypted.  The result is the chain and the cipher state afterwards; the outer `none` is
`encrypt` left without a `return`. -/
def encryptScan : List node → Int → Option (List node × Int)
  | [], s => some ([], s)
  | n :: rest, s =>
    if n.counted ≠ 0 ∧ n.encrypted = 0 then
      match encryptGuarded n.c s with
      | none => none
      | some (c', s') => some ({ n with c := c', encrypted := 1 } :: rest, s')
    else
      match encryptScan rest s with
      | none => none
      | some (rest', s') => some (n :: rest', s')

/-- Where `encryptInput` stands: before `sem_wait(&encrypt_in)`, before
`sem_wait(&encrypt_out)`, or after its loop. -/
inductive EncPc where
  | waitIn
  | waitOut
  | finished
deriving DecidableEq, Repr

/-- The shared data of the program and the local variables of its threads. -/
structure Pipeline where
  -- Bytes of `inFile` not yet read.
  inFile : List Nat
  -- Bytes written to `outFile`, in order.
  outFile : List Nat
  inputCount : histogram
  outputCount : histogram
  input_bufferq : queue
  output_bufferq : queue
  read_in : Nat
  count_in : Nat
  encrypt_in : Nat
  encrypt_out : Nat
  count_out : Nat
  write_out : Nat
  -- Local `cur` of `readInput`.
  cur : Int
  -- Local `s` of `encryptInput`.
  s : Int
  -- Local `temp` of `encryptInput` (`none` before its first assignment).
  temp : Option node
  readDone : Bool
  countInDone : Bool
  encPc : EncPc
  countOutDone : Bool
  writeDone : Bool
deriving DecidableEq, Repr

/-- The state after the initialisations of `main` and the first `cur = fgetc(inFile)` of
`readInput`. -/
def initPipeline (bufSize : Int) (file : List Nat) : Pipeline :=
  { inFile := (fgetc file).2, outFile := [],
    inputCount := emptyHistogram, outputCount := emptyHistogram,
    input_bufferq := initQueue bufSize, output_bufferq := initQueue bufSize,
    read_in := 1, count_in := 0, encrypt_in := 0, encrypt_out := 1, count_out := 0,
    write_out := 0,
    cur := toChar (fgetc file).1, s := 1, temp := none,
    readDone := false, countInDone := false, encPc := EncPc.waitIn,
    countOutDone := false, writeDone := false }

/-- One iteration of the loop of `readInput`, from `sem_wait(&read_in)`; `none` when the
thread has left its loop or the semaphore is 0. -/
def readInput (p : Pipeline) : Option Pipeline :=
  if p.readDone then none
  else if p.read_in = 0 then none
  else
    let p := { p with read_in := p.read_in - 1 }
    let r := enqueue p.input_bufferq p.cur
    if r.2 ≠ 0 then
      let p := { p with input_bufferq := r.1, count_in := p.count_in + 1 }
      if p.cur = EOF then
        some { p with readDone := true }
      else
        some { p with cur := toChar (fgetc p.inFile).1, inFile := (fgetc p.inFile).2 }
    else
      some { p with input_bufferq := r.1 }

/-- One iteration of the loop of `countInput`, from `sem_wait(&count_in)`. -/
def countInput (p : Pipeline) : Option Pipeline :=
  if p.countInDone then none
  else if p.count_in = 0 then none
  else
    let p := { p with count_in := p.count_in - 1 }
    match countScan p.input_bufferq.items with
    | none => some p
    | some (c, items) =>
      let p := { p with
        inputCount := p.inputCount.bump c,
        input_bufferq := { p.input_bufferq with items := items },
        encrypt_in := p.encrypt_in + 1 }
      if c = EOF then some { p with countInDone := true } else some p

/-- The first half of an iteration of `encryptInput`: from `sem_wait(&encrypt_in)` up to
`sem_wait(&encrypt_out)`.  `encrypt` left without a `return`, or `head->encrypted` read
with no node at `head`, has no continuation. -/
def encryptInputFirst (p : Pipeline) : Option Pipeline :=
  if p.encrypt_in = 0 then none
  else
    let p := { p with encrypt_in := p.encrypt_in - 1 }
    match encryptScan p.input_bufferq.items p.s with
    | none => none
    | some (items, s') =>
      let p := { p with input_bufferq := { p.input_bufferq with items := items }, s := s',
                        encPc := EncPc.waitOut }
      match p.input_bufferq.items with
      | [] =>
        -- no node at `head`: `head->encrypted` is read only when `count > 0`
        if 0 < p.input_bufferq.count then none else some p
      | hd :: _ =>
        if 0 < p.input_bufferq.count ∧ hd.encrypted ≠ 0 then
          let r := dequeue p.input_bufferq
          some { p with input_bufferq := r.1, temp := r.2, read_in := p.read_in + 1 }
        else
          some p

/-- The second half of an iteration of `encryptInput`: from `sem_wait(&encrypt_out)` to
the end of the loop body.  `temp->c` with no node in `temp` has no continuation. -/
def encryptInputSecond (p : Pipeline) : Option Pipeline :=
  if p.encrypt_out = 0 then none
  else
    match p.temp with
    | none => none
    | some temp =>
      let p := { p with encrypt_out := p.encrypt_out - 1 }
      let p := { p with output_bufferq := (enqueue p.output_bufferq temp.c).1,
                        count_out := p.count_out + 1 }
      if temp.c = EOF then some { p with encPc := EncPc.finished }
      else some { p with encPc := EncPc.waitIn }

/-- The thread `encryptInput`, by the point at which it stands. -/
def encryptInput (p : Pipeline) : Option Pipeline :=
  match p.encPc with
  | EncPc.waitIn => encryptInputFirst p
  | EncPc.waitOut => encryptInputSecond p
  | EncPc.finished => none

/-- One iteration of the loop of `countOutput`, from `sem_wait(&count_out)`. -/
def countOutput (p : Pipeline) : Option Pipeline :=
  if p.countOutDone then none
  else if p.count_out = 0 then none
  else
    let p := { p with count_out := p.count_out - 1 }
    match countScan p.output_bufferq.items with
    | none => some p
    | some (c, items) =>
      let p := { p with
        outputCount := p.outputCount.bump c,
        output_bufferq := { p.output_bufferq with items := items },
        write_out := p.write_out + 1 }
      if c = EOF then some { p with countOutDone := true } else some p

/-- The conversion of a `char` to `unsigned char` made by `fputc`. -/
def toByte (c : Int) : Nat := (c % 256).toNat

/-- One iteration of the loop of `writeOutput`, from `sem_wait(&write_out)`.  Reading
`cur->counted` with no node at `head` has no continuation.  `fputc` writes its argument
converted to `unsigned char`. -/
def writeOutput (p : Pipeline) : Option Pipeline :=
  if p.writeDone then none
  else if p.write_out = 0 then none
  else
    let p := { p with write_out := p.write_out - 1 }
    match p.output_bufferq.items with
    | [] => none
    | cur :: _ =>
      if cur.counted ≠ 0 then
        let p := { p with output_bufferq := (dequeue p.output_bufferq).1 }
        if cur.c = EOF then
          some { p with writeDone := true }
        else
          some { p with outFile := p.outFile ++ [toByte cur.c],
                        encrypt_out := p.encrypt_out + 1 }
      else
        some { p with encrypt_out := p.encrypt_out + 1 }

/-- The five threads. -/
inductive Stage where
  | read
  | countIn
  | encrypt
  | countOut
  | write
deriving DecidableEq, Repr

/-- One step of one thread; `none` when that thread cannot move. -/
def step : Stage → Pipeline → Option Pipeline
  | Stage.read => readInput
  | Stage.countIn => countInput
  | Stage.encrypt => encryptInput
  | Stage.countOut => countOutput
  | Stage.write => writeOutput

/-- All five threads have left their loops (the `pthread_join`s of `main` return). -/
def Pipeline.completed (p : Pipeline) : Bool :=
  p.readDone && p.countInDone && decide (p.encPc = EncPc.finished) && p.countOutDone
    && p.writeDone

/-- The states the program can get to from `p`, whatever the scheduling of the threads. -/
inductive Reachable (p : Pipeline) : Pipeline → Prop where
  | refl : Reachable p p
  | tail (q r : Pipeline) (t : Stage) : Reachable p q → step t q = some r → Reachable p r

/-- The first thread, in creation order, that can move, with the state it moves to. -/
def firstStep (p : Pipeline) : Option Pipeline :=
  match readInput p with
  | some q => some q
  | none =>
    match countInput p with
    | some q => some q
    | none =>
      match encryptInput p with
      | some q => some q
      | none =>
        match countOutput p with
        | some q => some q
        | none => writeOutput p

/-- The program run for at most `fuel` steps, the first thread that can move moving at
each step, until no thread can move. -/
def runPipeline : Nat → Pipeline → Pipeline
  | 0, p => p
  | fuel + 1, p =>
    match firstStep p with
    | none => p
    | some q => runPipeline fuel q

/-! ## The stream seen by the stages -/

/-- The characters `readInput` enqueues for the bytes still in the file: each byte
converted to `char`, up to and including the first one equal to `EOF`, which stands for
the end of the file or for a byte `0xFF`. -/
def readChars : List Nat → List Int
  | [] => [EOF]
  | b :: rest =>
    if toChar (b : Int) = EOF then [EOF] else toChar (b : Int) :: readChars rest

/-- The characters of the stream in front of the sentinel: the bytes of the file, as
`char`s, in front of the first byte that converts to `EOF`. -/
def streamChars (file : List Nat) : List Int :=
  (file.takeWhile (fun (b : Nat) => decide (toChar (b : Int) ≠ EOF))).map
    (fun (b : Nat) => toChar (b : Int))

/-- The characters `readInput` has still to enqueue. -/
def pendingRead (p : Pipeline) : List Int :=
  if p.readDone then []
  else if p.cur = EOF then [EOF]
  else p.cur :: readChars p.inFile

/-- The characters held by a queue, from `head` on. -/
def heldChars (q : queue) : List Int := q.items.map node.c

/-- The characters of the counted nodes of a queue. -/
def countedChars (q : queue) : List Int :=
  (q.items.filter (fun n => decide (n.counted ≠ 0))).map node.c

/-- The character `encryptInput` has taken from the input queue and not yet put into the
output queue. -/
def tempChars (p : Pipeline) : List Int :=
  match p.encPc, p.temp with
  | EncPc.waitOut, some t => [t.c]
  | _, _ => []

/-- A histogram after the increments for a list of characters, in order. -/
def bumpAll (h : histogram) (cs : List Int) : histogram := cs.foldl histogram.bump h

/-- The output of `cipherStream` from state `+1`, without the final state. -/
def cipherOut (cs : List Int) : List Int :=
  match cipherStream cs 1 with
  | some (out, _) => out
  | none => []

/-- The steps the threads have still to make: six for each character not yet read, and
for a character on its way five, four, three, two or one, by the stage it has reached. -/
def workLeft (p : Pipeline) : Nat :=
  6 * (pendingRead p).length
  + (p.input_bufferq.items.map (fun n => if n.counted = 0 then 5 else 4)).sum
  + (if p.encPc = EncPc.waitOut then 3 else 0)
  + (p.output_bufferq.items.map (fun n => if n.counted = 0 then 2 else 1)).sum

/-- State of the input queue and of its three semaphores: the slot is free, or one node is
held that is not counted, or one node is held that is counted. -/
def InPhase (p : Pipeline) : Prop :=
  (p.input_bufferq.items = [] ∧ p.input_bufferq.count = 0 ∧ p.read_in = 1
    ∧ p.count_in = 0 ∧ p.encrypt_in = 0 ∧ p.countInDone = p.readDone)
  ∨ (∃ c, p.input_bufferq.items = [{ c := c, counted := 0, encrypted := 0 }]
    ∧ p.input_bufferq.count = 1 ∧ p.read_in = 0 ∧ p.count_in = 1 ∧ p.encrypt_in = 0
    ∧ p.countInDone = false ∧ (p.readDone = true ↔ c = EOF))
  ∨ (∃ c, p.input_bufferq.items = [{ c := c, counted := 1, encrypted := 0 }]
    ∧ p.input_bufferq.count = 1 ∧ p.read_in = 0 ∧ p.count_in = 0 ∧ p.encrypt_in = 1
    ∧ (p.countInDone = true ↔ c = EOF) ∧ (p.readDone = true ↔ c = EOF)
    ∧ p.encPc ≠ EncPc.finished)

/-- State of `encryptInput` against the input side. -/
def EncPhase (p : Pipeline) : Prop :=
  match p.encPc with
  | EncPc.waitIn => p.readDone = true → p.input_bufferq.items ≠ []
  | EncPc.waitOut =>
    ∃ t, p.temp = some t ∧ (t.c = EOF ↔ (p.readDone = true ∧ p.input_bufferq.items = []))
  | EncPc.finished => p.readDone = true ∧ p.input_bufferq.items = []

/-- State of the output queue and of its three semaphores: the slot is free, or one node is
held that is not counted, or one node is held that is counted, or the sentinel has been
taken out by `writeOutput`. -/
def OutPhase (p : Pipeline) : Prop :=
  (p.output_bufferq.items = [] ∧ p.output_bufferq.count = 0 ∧ p.encrypt_out = 1
    ∧ p.count_out = 0 ∧ p.write_out = 0 ∧ p.countOutDone = false ∧ p.writeDone = false
    ∧ p.encPc ≠ EncPc.finished)
  ∨ (∃ c, p.output_bufferq.items = [{ c := c, counted := 0, encrypted := 0 }]
    ∧ p.output_bufferq.count = 1 ∧ p.encrypt_out = 0 ∧ p.count_out = 1 ∧ p.write_out = 0
    ∧ p.countOutDone = false ∧ p.writeDone = false
    ∧ (p.encPc = EncPc.finished ↔ c = EOF))
  ∨ (∃ c, p.output_bufferq.items = [{ c := c, counted := 1, encrypted := 0 }]
    ∧ p.output_bufferq.count = 1 ∧ p.encrypt_out = 0 ∧ p.count_out = 0 ∧ p.write_out = 1
    ∧ (p.countOutDone = true ↔ c = EOF) ∧ p.writeDone = false
    ∧ (p.encPc = EncPc.finished ↔ c = EOF))
  ∨ (p.output_bufferq.items = [] ∧ p.output_bufferq.count = 0 ∧ p.encrypt_out = 0
    ∧ p.count_out = 0 ∧ p.write_out = 0 ∧ p.countOutDone = true ∧ p.writeDone = true
    ∧ p.encPc = EncPc.finished)

/-- The invariant of the pipeline on the stream `X` with buffer size `bufSize`: `A` are
the characters `encryptInput` has taken from the input queue, `A'` their cipher, `D` the
characters `writeOutput` has taken from the output queue. -/
structure Inv (bufSize : Int) (X : List Int) (p : Pipeline) (A A' D : List Int) : Prop where
  split : X = A ++ heldChars p.input_bufferq ++ pendingRead p
  ciph : cipherStream A 1 = some (A', p.s)
  sval : p.s = 1 ∨ p.s = -1 ∨ p.s = 0
  outSplit : A' = D ++ heldChars p.output_bufferq ++ tempChars p
  inCount : p.inputCount = bumpAll emptyHistogram (A ++ countedChars p.input_bufferq)
  outCount : p.outputCount = bumpAll emptyHistogram (D ++ countedChars p.output_bufferq)
  written : p.outFile = (D.filter (fun c => decide (c ≠ EOF))).map toByte
  capIn : p.input_bufferq.capacity = bufSize
  capOut : p.output_bufferq.capacity = bufSize
  inPhase : InPhase p
  encPhase : EncPhase p
  outPhase : OutPhase p

/-! ## Schedules -/

/-- A schedule run from a state: the threads are given the turn in the order of the list;
a thread that cannot move when it has the turn makes no step. -/
def runSchedule : List Stage → Pipeline → Pipeline
  | [], p => p
  | t :: ts, p =>
    match step t p with
    | none => runSchedule ts p
    | some q => runSchedule ts q

theorem isLetter_iff (c : Int) :
    isLetter c = true ↔ (65 ≤ c ∧ c ≤ 90) ∨ (97 ≤ c ∧ c ≤ 122) := by
  simp [isLetter]

theorem encrypt_of_not_letter (c s : Int) (h : isLetter c = false) :
    encrypt c s = some (c, s) := by
  simp [encrypt, h]

theorem encrypt_letter_cases (c s : Int) (hc : isLetter c = true)
    (hs : s = 1 ∨ s = -1 ∨ s = 0) :
    encrypt c s = some (shiftLetter c s, nextState s) := by
  rw [isLetter_iff] at hc
  rcases hc with ⟨h1, h2⟩ | ⟨h1, h2⟩ <;> rcases hs with rfl | rfl | rfl <;>
    interval_cases c <;> rfl

theorem shiftLetter_facts (c : Int) (hc : isLetter c = true) :
    shiftLetter c 1 = shiftForward c ∧ shiftLetter c (-1) = shiftBackward c
    ∧ shiftLetter c 0 = c := by
  rw [isLetter_iff] at hc
  rcases hc with ⟨h1, h2⟩ | ⟨h1, h2⟩ <;> interval_cases c <;> decide

theorem shiftLetter_same_case (c s : Int) (hc : isLetter c = true)
    (hs : s = 1 ∨ s = -1 ∨ s = 0) :
    alphaBase (shiftLetter c s) = alphaBase c ∧ isLetter (shiftLetter c s) = true := by
  rw [isLetter_iff] at hc
  rcases hc with ⟨h1, h2⟩ | ⟨h1, h2⟩ <;> rcases hs with rfl | rfl | rfl <;>
    interval_cases c <;> decide

theorem encryptGuarded_of_not_letter (c s : Int) (h : isLetter c = false) :
    encryptGuarded c s = some (c, s) := by
  unfold encryptGuarded
  split
  · exact encrypt_of_not_letter c s h
  · rfl

/-- C2: on every ASCII letter `c` and every state `s` of `+1`, `-1`, `0`, `encrypt`
returns `c` moved `s` positions circularly inside its own 26-letter alphabet (forward for
`+1` with `Z→A`, `z→a`; backward for `-1` with `A→Z`, `a→z`; unchanged for `0`), the
result is a letter of the same case, and the state is left at the next value of the
cycle `+1 → -1 → 0 → +1`; the four wraparound cases are as listed. -/
theorem encrypt_letter (c s : Int) (hc : isLetter c = true) (hs : s = 1 ∨ s = -1 ∨ s = 0) :
    encrypt c s = some (shiftLetter c s, nextState s)
    ∧ (s = 1 → shiftLetter c s = shiftForward c)
    ∧ (s = -1 → shiftLetter c s = shiftBackward c)
    ∧ (s = 0 → shiftLetter c s = c)
    ∧ (alphaBase (shiftLetter c s) = alphaBase c ∧ isLetter (shiftLetter c s) = true)
    ∧ (nextState 1 = -1 ∧ nextState (-1) = 0 ∧ nextState 0 = 1)
    ∧ encrypt 90 1 = some (65, -1) ∧ encrypt 65 (-1) = some (90, 0)
    ∧ encrypt 122 1 = some (97, -1) ∧ encrypt 97 (-1) = some (122, 0) := by
  have hf := shiftLetter_facts c hc
  refine ⟨encrypt_letter_cases c s hc hs, ?_, ?_, ?_, shiftLetter_same_case c s hc hs,
    by decide, by decide, by decide, by decide, by decide⟩
  · rintro rfl
    exact hf.1
  · rintro rfl
    exact hf.2.1
  · rintro rfl
    exact hf.2.2

theorem encrypt_letter_witness :
    isLetter 90 = true ∧ encrypt 90 1 = some (shiftLetter 90 1, nextState 1)
    ∧ shiftLetter 90 1 = 65 ∧ nextState 1 = -1 :=
  ⟨by decide, (encrypt_letter 90 1 (by decide) (by decide)).1, by decide, by decide⟩

/-- C3: a character that is not an ASCII letter (the end-of-stream sentinel `EOF` and the
line terminator included) comes out of the transform stage unchanged and leaves the state
unchanged, whatever the state: both from `encrypt` called directly and from the guarded
call of `encryptInput`. -/
theorem non_letter_passes (c s : Int) (h : isLetter c = false) :
    encrypt c s = some (c, s) ∧ encryptGuarded c s = some (c, s)
    ∧ isLetter EOF = false ∧ isLetter 10 = false := by
  exact ⟨encrypt_of_not_letter c s h, encryptGuarded_of_not_letter c s h, by decide,
    by decide⟩

theorem non_letter_passes_witness :
    isLetter EOF = false ∧ encrypt EOF 1 = some (EOF, 1) ∧ encryptGuarded EOF 1 = some (EOF, 1) :=
  ⟨by decide, (non_letter_passes EOF 1 (by decide)).1, (non_letter_passes EOF 1 (by decide)).2.1⟩

/-! ## The cipher over a stream -/

theorem encryptGuarded_letter (c s : Int) (hc : isLetter c = true)
    (hs : s = 1 ∨ s = -1 ∨ s = 0) :
    encryptGuarded c s = some (shiftLetter c s, nextState s) := by
  have h1 : c ≠ EOF := by
    rintro rfl
    exact absurd hc (by decide)
  have h2 : c ≠ 10 := by
    rintro rfl
    exact absurd hc (by decide)
  simp [encryptGuarded, h1, h2, encrypt_letter_cases c s hc hs]

theorem stateAt_cases (j : Nat) : stateAt j = 1 ∨ stateAt j = -1 ∨ stateAt j = 0 := by
  unfold stateAt
  split
  · exact Or.inl rfl
  · split
    · exact Or.inr (Or.inl rfl)
    · exact Or.inr (Or.inr rfl)

theorem nextState_stateAt (j : Nat) : nextState (stateAt j) = stateAt (j + 1) := by
  have h : j % 3 = 0 ∨ j % 3 = 1 ∨ j % 3 = 2 := by omega
  have h3 : (j + 1) % 3 = (j % 3 + 1) % 3 := by omega
  unfold nextState stateAt
  rw [h3]
  rcases h with h | h | h <;> simp [h]

theorem cipherStream_eq_cycleCipher (cs : List Int) (k : Nat) :
    cipherStream cs (stateAt k) = some (cycleCipher k cs, stateAt (k + letterCount cs)) := by
  induction cs generalizing k with
  | nil => simp [cipherStream, cycleCipher, letterCount]
  | cons c cs ih =>
    cases hc : isLetter c with
    | true =>
      have hl : letterCount (c :: cs) = letterCount cs + 1 := by
        simp [letterCount, List.filter_cons, hc]
      rw [cipherStream, encryptGuarded_letter c _ hc (stateAt_cases k)]
      simp only [nextState_stateAt, ih (k + 1), cycleCipher, hc, if_true, hl]
      congr 3
      omega
    | false =>
      have hl : letterCount (c :: cs) = letterCount cs := by
        simp [letterCount, List.filter_cons, hc]
      rw [cipherStream, encryptGuarded_of_not_letter c _ hc]
      simp [ih k, cycleCipher, hc, hl]

theorem cycleCipher_getElem? (cs : List Int) (k i : Nat) :
    (cycleCipher k cs)[i]? = (cs[i]?).map (fun c =>
      if isLetter c then shiftLetter c (stateAt (k + letterCount (cs.take i))) else c) := by
  induction cs generalizing k i with
  | nil => simp [cycleCipher]
  | cons c cs ih =>
    cases i with
    | zero =>
      cases hc : isLetter c <;> simp [cycleCipher, hc, letterCount]
    | succ i =>
      cases hc : isLetter c
      · simp [cycleCipher, hc, letterCount, List.filter_cons, ih]
      · have h : ∀ n, k + 1 + n = k + (n + 1) := fun n => by omega
        simp [cycleCipher, hc, letterCount, List.filter_cons, ih, h]

theorem cycleCipher_length (cs : List Int) (k : Nat) :
    (cycleCipher k cs).length = cs.length := by
  induction cs generalizing k with
  | nil => rfl
  | cons c cs ih => cases hc : isLetter c <;> simp [cycleCipher, hc, ih]

/-- C4: a stream ciphered in order from state `+1` keeps its length; its `j`-th ASCII
letter (letters only are counted, from 0, whatever lies in between) is moved forward when
`j % 3 = 0`, moved backward when `j % 3 = 1` and left unchanged when `j % 3 = 2`; every
non-letter is left unchanged and takes no slot of the cycle; the final state is the one
of the cycle after all the letters.  `"AbC"` becomes `"BaC"` and ends in state `+1`. -/
theorem cipher_cycle_law (cs : List Int) :
    ∃ out : List Int,
      cipherStream cs 1 = some (out, stateAt (letterCount cs))
      ∧ out.length = cs.length
      ∧ (∀ i : Nat, out[i]? = (cs[i]?).map (fun c =>
          if isLetter c then
            if letterCount (cs.take i) % 3 = 0 then shiftForward c
            else if letterCount (cs.take i) % 3 = 1 then shiftBackward c
            else c
          else c))
      ∧ cipherStream [65, 98, 67] 1 = some ([66, 97, 67], 1) := by
  refine ⟨cycleCipher 0 cs, ?_, cycleCipher_length cs 0, ?_, by decide⟩
  · have h := cipherStream_eq_cycleCipher cs 0
    simpa [stateAt] using h
  · intro i
    rw [cycleCipher_getElem?]
    congr 1
    funext c
    cases hc : isLetter c with
    | false => simp
    | true =>
      simp only [if_true, Nat.zero_add]
      have hf := shiftLetter_facts c hc
      unfold stateAt
      split
      · exact hf.1
      · split
        · exact hf.2.1
        · exact hf.2.2

/-! ## The bounded queue -/

theorem enqueue_full (q : queue) (c : Int) (h : q.count = q.capacity) :
    enqueue q c = (q, 0) := by
  simp [enqueue, h]

theorem enqueue_room (q : queue) (c : Int) (hwf : q.WF) (h : q.count ≠ q.capacity) :
    enqueue q c =
      ({ items := q.items ++ [{ c := c, counted := 0, encrypted := 0 }],
         capacity := q.capacity, count := q.count + 1 }, 1) := by
  unfold queue.WF at hwf
  by_cases h0 : q.count = 0
  · have hl : q.items = [] := by
      rw [h0] at hwf
      exact List.length_eq_zero.mp (by exact_mod_cast hwf.symm)
    have hc : ¬ (0 : Int) = q.capacity := fun e => h (h0.trans e)
    simp [enqueue, h0, hl, hc]
  · simp [enqueue, h, h0]

theorem dequeue_empty (q : queue) (h : q.count = 0) : dequeue q = (q, none) := by
  simp [dequeue, h]

theorem dequeue_cons (q : queue) (hd : node) (rest : List node) (hwf : q.WF)
    (hi : q.items = hd :: rest) :
    dequeue q = ({ items := rest, capacity := q.capacity, count := q.count - 1 }, some hd) := by
  unfold queue.WF at hwf
  have h0 : q.count ≠ 0 := by
    rw [hwf, hi]
    simp
    omega
  simp [dequeue, h0, hi]

theorem items_ne_nil_of_count (q : queue) (hwf : q.WF) (h : q.count ≠ 0) :
    ∃ hd rest, q.items = hd :: rest := by
  unfold queue.WF at hwf
  cases hi : q.items with
  | nil =>
    rw [hi] at hwf
    exact absurd hwf h
  | cons hd rest => exact ⟨hd, rest, rfl⟩

/-- C5: on a queue whose `count` is the number of its nodes, `enqueue` returns 0 exactly
when `count == capacity` and then leaves the queue as it was; otherwise it returns 1,
`count` grows by exactly one, `capacity` is unchanged, and a node with the character,
`counted = 0` and `encrypted = 0` is appended after the existing nodes, which are
unchanged. -/
theorem enqueue_spec (q : queue) (c : Int) (hwf : q.WF) :
    ((enqueue q c).2 = 0 ↔ q.count = q.capacity)
    ∧ (q.count = q.capacity → (enqueue q c).1 = q)
    ∧ (q.count ≠ q.capacity →
        (enqueue q c).2 = 1
        ∧ (enqueue q c).1.count = q.count + 1
        ∧ (enqueue q c).1.capacity = q.capacity
        ∧ (enqueue q c).1.items = q.items ++ [{ c := c, counted := 0, encrypted := 0 }]) := by
  by_cases h : q.count = q.capacity
  · simp [enqueue_full q c h, h]
  · simp [enqueue_room q c hwf h, h]

theorem enqueue_spec_witness :
    (initQueue 2).WF
    ∧ ((enqueue (initQueue 2) 65).2 = 0 ↔ (initQueue 2).count = (initQueue 2).capacity)
    ∧ (enqueue (initQueue 2) 65).1.items = [{ c := 65, counted := 0, encrypted := 0 }] :=
  ⟨rfl, (enqueue_spec (initQueue 2) 65 rfl).1,
    ((enqueue_spec (initQueue 2) 65 rfl).2.2 (by decide)).2.2.2⟩

/-- C6: on a queue whose `count` is the number of its nodes, `dequeue` returns no node
exactly when `count == 0` and then leaves the queue as it was; otherwise it returns a
node whose character, `counted` and `encrypted` are those of the head (oldest) node,
removes exactly that node, lowers `count` by exactly one and leaves `capacity` and the
remaining nodes, in their order, unchanged. -/
theorem dequeue_spec (q : queue) (hwf : q.WF) :
    ((dequeue q).2 = none ↔ q.count = 0)
    ∧ (q.count = 0 → (dequeue q).1 = q)
    ∧ (q.count ≠ 0 → ∃ hd rest n,
        q.items = hd :: rest
        ∧ (dequeue q).2 = some n
        ∧ n.c = hd.c ∧ n.counted = hd.counted ∧ n.encrypted = hd.encrypted
        ∧ (dequeue q).1.items = rest
        ∧ (dequeue q).1.count = q.count - 1
        ∧ (dequeue q).1.capacity = q.capacity) := by
  by_cases h : q.count = 0
  · simp [dequeue_empty q h, h]
  · obtain ⟨hd, rest, hi⟩ := items_ne_nil_of_count q hwf h
    have hd2 := dequeue_cons q hd rest hwf hi
    refine ⟨by simp [hd2, h], fun h0 => absurd h0 h, fun _ => ?_⟩
    exact ⟨hd, rest, hd, hi, by rw [hd2], rfl, rfl, rfl, by rw [hd2], by rw [hd2],
      by rw [hd2]⟩

theorem dequeue_spec_witness :
    (enqueue (initQueue 2) 65).1.WF
    ∧ ((dequeue (enqueue (initQueue 2) 65).1).2 = none ↔ (enqueue (initQueue 2) 65).1.count = 0)
    ∧ (dequeue (enqueue (initQueue 2) 65).1).2 = some { c := 65, counted := 0, encrypted := 0 } :=
  ⟨rfl, (dequeue_spec (enqueue (initQueue 2) 65).1 rfl).1, rfl⟩

theorem applyOp_wf (t : QTrace) (op : QOp) (hwf : t.q.WF) : (applyOp t op).q.WF := by
  cases op with
  | enq c =>
    by_cases h : t.q.count = t.q.capacity
    · simpa [applyOp, enqueue_full t.q c h] using hwf
    · unfold queue.WF at hwf ⊢
      simp [applyOp, enqueue_room t.q c hwf h, hwf]
  | deq =>
    by_cases h : t.q.count = 0
    · simpa [applyOp, dequeue_empty t.q h] using hwf
    · obtain ⟨hd, rest, hi⟩ := items_ne_nil_of_count t.q hwf h
      unfold queue.WF at hwf ⊢
      simp [applyOp, dequeue_cons t.q hd rest hwf hi, hwf, hi]

theorem applyOp_fifo (t : QTrace) (op : QOp) (hwf : t.q.WF)
    (h : t.accepted = t.returned ++ t.q.items.map node.c) :
    (applyOp t op).accepted = (applyOp t op).returned ++ (applyOp t op).q.items.map node.c := by
  cases op with
  | enq c =>
    by_cases hf : t.q.count = t.q.capacity
    · simpa [applyOp, enqueue_full t.q c hf] using h
    · simp [applyOp, enqueue_room t.q c hwf hf, h]
  | deq =>
    by_cases h0 : t.q.count = 0
    · simpa [applyOp, dequeue_empty t.q h0] using h
    · obtain ⟨hd, rest, hi⟩ := items_ne_nil_of_count t.q hwf h0
      simp [applyOp, dequeue_cons t.q hd rest hwf hi, h, hi]

theorem applyOp_bounds (t : QTrace) (op : QOp) (hwf : t.q.WF)
    (h : 0 ≤ t.q.count ∧ t.q.count ≤ t.q.capacity) :
    (0 ≤ (applyOp t op).q.count ∧ (applyOp t op).q.count ≤ (applyOp t op).q.capacity)
    ∧ (applyOp t op).q.capacity = t.q.capacity := by
  cases op with
  | enq c =>
    by_cases hf : t.q.count = t.q.capacity
    · simpa [applyOp, enqueue_full t.q c hf] using h
    · simp only [applyOp, enqueue_room t.q c hwf hf]
      exact ⟨by omega, trivial⟩
  | deq =>
    by_cases h0 : t.q.count = 0
    · simpa [applyOp, dequeue_empty t.q h0] using h
    · obtain ⟨hd, rest, hi⟩ := items_ne_nil_of_count t.q hwf h0
      simp only [applyOp, dequeue_cons t.q hd rest hwf hi]
      exact ⟨by omega, trivial⟩

theorem foldl_applyOp_fifo (ops : List QOp) (t : QTrace) (hwf : t.q.WF)
    (h : t.accepted = t.returned ++ t.q.items.map node.c) :
    (ops.foldl applyOp t).q.WF
    ∧ (ops.foldl applyOp t).accepted =
        (ops.foldl applyOp t).returned ++ (ops.foldl applyOp t).q.items.map node.c := by
  induction ops generalizing t with
  | nil => exact ⟨hwf, h⟩
  | cons op ops ih =>
    exact ih (applyOp t op) (applyOp_wf t op hwf) (applyOp_fifo t op hwf h)

theorem foldl_applyOp_bounds (ops : List QOp) (t : QTrace) (hwf : t.q.WF)
    (h : 0 ≤ t.q.count ∧ t.q.count ≤ t.q.capacity) :
    (ops.foldl applyOp t).q.WF
    ∧ 0 ≤ (ops.foldl applyOp t).q.count
    ∧ (ops.foldl applyOp t).q.count ≤ (ops.foldl applyOp t).q.capacity
    ∧ (ops.foldl applyOp t).q.capacity = t.q.capacity := by
  induction ops generalizing t with
  | nil => exact ⟨hwf, h.1, h.2, rfl⟩
  | cons op ops ih =>
    have hb := applyOp_bounds t op hwf h
    have := ih (applyOp t op) (applyOp_wf t op hwf) hb.1
    exact ⟨this.1, this.2.1, this.2.2.1, this.2.2.2.trans hb.2⟩

/-- C7: for every capacity of at least 1 and every sequence of `enqueue` and `dequeue`
calls on the initially empty queue, the characters accepted by the successful `enqueue`s
are, in order, the characters returned by the successful `dequeue`s followed by the
characters still held from `head` on; so the returned characters are a prefix of the
accepted ones: nothing is lost, duplicated or reordered. -/
theorem queue_fifo (bufSize : Int) (ops : List QOp) (hcap : 1 ≤ bufSize) :
    (runOps bufSize ops).accepted =
        (runOps bufSize ops).returned ++ (runOps bufSize ops).q.items.map node.c
    ∧ (runOps bufSize ops).returned <+: (runOps bufSize ops).accepted
    ∧ (runOps bufSize ops).q.capacity = bufSize := by
  have h := foldl_applyOp_fifo ops { q := initQueue bufSize, accepted := [], returned := [] }
    rfl rfl
  have hb := foldl_applyOp_bounds ops
    { q := initQueue bufSize, accepted := [], returned := [] } rfl
    ⟨le_refl _, by simp only [initQueue]; omega⟩
  exact ⟨h.2, ⟨_, h.2.symm⟩, hb.2.2.2⟩

theorem queue_fifo_witness :
    (1 : Int) ≤ 2
    ∧ (runOps 2 [QOp.enq 65, QOp.enq 66, QOp.enq 67, QOp.deq, QOp.enq 68, QOp.deq]).returned
        <+: (runOps 2 [QOp.enq 65, QOp.enq 66, QOp.enq 67, QOp.deq, QOp.enq 68, QOp.deq]).accepted
    ∧ (runOps 2 [QOp.enq 65, QOp.enq 66, QOp.enq 67, QOp.deq, QOp.enq 68, QOp.deq]).returned
        = [65, 66]
    ∧ (runOps 2 [QOp.enq 65, QOp.enq 66, QOp.enq 67, QOp.deq, QOp.enq 68, QOp.deq]).accepted
        = [65, 66, 68] :=
  ⟨by decide, (queue_fifo 2 _ (by decide)).2.1, by decide, by decide⟩

/-- C8: from the empty queue `main` initialises (`count = 0`, `capacity` the entered
buffer size, not negative), every sequence of `enqueue` and `dequeue` calls keeps
`0 <= count <= capacity`, keeps `capacity` at the entered size, and keeps `count` equal
to the number of nodes held from `head` on. -/
theorem queue_size_invariant (bufSize : Int) (ops : List QOp) (hcap : 0 ≤ bufSize) :
    0 ≤ (runOps bufSize ops).q.count
    ∧ (runOps bufSize ops).q.count ≤ (runOps bufSize ops).q.capacity
    ∧ (runOps bufSize ops).q.capacity = bufSize
    ∧ (runOps bufSize ops).q.count = ((runOps bufSize ops).q.items.length : Int) := by
  have hb := foldl_applyOp_bounds ops
    { q := initQueue bufSize, accepted := [], returned := [] } rfl ⟨le_refl _, hcap⟩
  exact ⟨hb.2.1, hb.2.2.1, hb.2.2.2, hb.1⟩

theorem queue_size_invariant_witness :
    (0 : Int) ≤ 1
    ∧ (runOps 1 [QOp.enq 65, QOp.enq 66, QOp.deq, QOp.deq, QOp.enq 67]).q.count ≤ 1
    ∧ (runOps 1 [QOp.enq 65, QOp.enq 66, QOp.deq, QOp.deq, QOp.enq 67]).q.items
        = [{ c := 67, counted := 0, encrypted := 0 }] :=
  ⟨by decide, (queue_size_invariant 1 _ (by decide)).2.1, by decide⟩

/-! ## The report of `main` -/

theorem toChar_ne_newline (v : Nat) (hv : v < 255) : toChar (v : Int) ≠ 10 ↔ v ≠ 10 := by
  unfold toChar
  omega

theorem reportFrom_eq (count : Nat → Nat) (i n : Nat) :
    reportFrom count i n =
      ((List.range' i n).filter
        (fun (v : Nat) => decide (0 < count v) && decide (toChar (v : Int) ≠ 10))).map
        (fun (v : Nat) => (toChar (v : Int), count v)) := by
  induction n generalizing i with
  | zero => rfl
  | succ n ih =>
    by_cases h : 0 < count i ∧ toChar (i : Int) ≠ 10
    · simp [reportFrom, List.range', List.filter_cons, h, ih]
    · have h' : (decide (0 < count i) && decide (toChar (i : Int) ≠ 10)) = false := by
        simpa using h
      simp only [reportFrom, List.range', List.filter_cons, h, h', if_false, ih]
      simp

/-- The loop of `main` over the indices `0 .. 254`, as a listing. -/
theorem report_lines (count : Nat → Nat) : reportLines count = listing 255 count := by
  unfold reportLines listing
  rw [reportFrom_eq, List.range_eq_range']
  congr 1
  apply List.filter_congr
  intro v hv
  have hv' : v < 255 := by
    have := List.mem_range'_1.mp hv
    omega
  have h1 := toChar_ne_newline v hv'
  by_cases h10 : v = 10
  · subst h10
    simp [toChar]
  · have : toChar (v : Int) ≠ 10 := h1.mpr h10
    simp [h10, this, Nat.pos_iff_ne_zero]

theorem listing_succ_of_zero (count : Nat → Nat) (n : Nat) (h : count n = 0) :
    listing (n + 1) count = listing n count := by
  unfold listing
  rw [List.range_succ, List.filter_append]
  simp [h]

/-- C10: for every histogram (an array of 255 entries), the lines `main` prints for it
are exactly one line, character and number, for each byte value `v` in `0 .. 255` whose
count is nonzero and that is not the line terminator, in ascending order of `v`, and
nothing else; byte value 255 has no entry in the array, hence no nonzero count. -/
theorem report_content (h : histogram) (hl : h.cells.length = 255) :
    h.report = listing 256 (fun i => h.cells.getD i 0) := by
  have h255 : (fun i => h.cells.getD i 0) 255 = 0 := by
    have hnone : h.cells[255]? = none := List.getElem?_eq_none (by omega)
    simp [List.getD, hnone]
  rw [listing_succ_of_zero _ 255 h255]
  exact report_lines _

theorem report_content_witness :
    (emptyHistogram.bump 65).cells.length = 255
    ∧ (emptyHistogram.bump 65).report
        = listing 256 (fun i => (emptyHistogram.bump 65).cells.getD i 0)
    ∧ (emptyHistogram.bump 65).report = [(65, 1)] :=
  ⟨by set_option maxRecDepth 100000 in decide,
    report_content _ (by set_option maxRecDepth 100000 in decide),
    by set_option maxRecDepth 100000 in decide⟩

/-! ## The pipeline on particular inputs -/

/-- C1, at the input file of the three bytes `'A'`, `0xFF`, `'B'` with buffer size 1:
the program runs to completion and the output file holds the single byte `'B'`, the
cipher of `'A'`; the byte `0xFF`, read into a `char`, equals `EOF` and ends the stream.
The cipher of the whole input has three bytes. -/
theorem pipeline_stops_at_0xFF :
    (runPipeline 100 (initPipeline 1 [65, 255, 66])).completed = true
    ∧ (runPipeline 100 (initPipeline 1 [65, 255, 66])).outFile = [66]
    ∧ toChar 255 = EOF
    ∧ cipherStream [toChar 65, toChar 255, toChar 66] 1 = some ([66, -1, 65], 0) := by
  decide

/-- C9, at the empty input file with buffer size 1: the program runs to completion, the
sentinel is counted once on each side at index `-1`, outside the declared entries, and
all the entries of `inputCount` and of `outputCount` are 0, so each sum is 0, not 1. -/
theorem histograms_of_empty_input :
    (runPipeline 100 (initPipeline 1 [])).completed = true
    ∧ (runPipeline 100 (initPipeline 1 [])).inputCount.total = 0
    ∧ (runPipeline 100 (initPipeline 1 [])).outputCount.total = 0
    ∧ (runPipeline 100 (initPipeline 1 [])).inputCount.stray = [-1]
    ∧ (runPipeline 100 (initPipeline 1 [])).outputCount.stray = [-1] := by
  set_option maxRecDepth 100000 in decide

/-! ## The invariant of the pipeline -/

theorem readChars_fgetc (f : List Nat) :
    (if toChar (fgetc f).1 = EOF then [EOF] else toChar (fgetc f).1 :: readChars (fgetc f).2)
      = readChars f := by
  cases f with
  | nil => simp [fgetc, readChars, toChar, EOF]
  | cons b rest => simp [fgetc, readChars]

theorem inv_init (bufSize : Int) (file : List Nat) :
    Inv bufSize (readChars file) (initPipeline bufSize file) [] [] [] := by
  constructor
  · simp [initPipeline, heldChars, pendingRead, initQueue, readChars_fgetc]
  · rfl
  · exact Or.inl rfl
  · simp [initPipeline, heldChars, tempChars, initQueue]
  · rfl
  · rfl
  · rfl
  · rfl
  · rfl
  · exact Or.inl ⟨rfl, rfl, rfl, rfl, rfl, rfl⟩
  · simp [EncPhase, initPipeline]
  · exact Or.inl ⟨rfl, rfl, rfl, rfl, rfl, rfl, rfl, by simp [initPipeline]⟩

theorem enqueue_empty (q : queue) (c : Int) (h0 : q.count = 0) (hc : q.capacity ≠ 0) :
    enqueue q c =
      ({ items := [{ c := c, counted := 0, encrypted := 0 }], capacity := q.capacity,
         count := 1 }, 1) := by
  have h : ¬ (0 : Int) = q.capacity := by omega
  simp [enqueue, h, h0]

theorem dequeue_single (q : queue) (n : node) (hi : q.items = [n]) (h1 : q.count = 1) :
    dequeue q = ({ items := [], capacity := q.capacity, count := 0 }, some n) := by
  simp [dequeue, hi, h1]

theorem inv_readInput (bufSize : Int) (hcap : bufSize ≠ 0) (X : List Int) (p q : Pipeline)
    (A A' D : List Int) (h : Inv bufSize X p A A' D) (hs : readInput p = some q) :
    Inv bufSize X q A A' D ∧ workLeft q + 1 = workLeft p := by
  obtain ⟨hsplit, hciph, hsval, hout, hic, hoc, hw, hci, hco, hin, henc, hop⟩ := h
  unfold readInput at hs
  by_cases hd : p.readDone = true
  · simp [hd] at hs
  · by_cases hr : p.read_in = 0
    · simp [hd, hr] at hs
    · rcases hin with ⟨hi, hcnt, hri, hcin, hein, hdone⟩ | ⟨c, hi, hcnt, hri, _⟩ |
        ⟨c, hi, hcnt, hri, _⟩
      · have hq := enqueue_empty p.input_bufferq p.cur hcnt (by omega)
        simp only [hd, hr, hq] at hs
        by_cases he : p.cur = EOF
        · simp [he] at hs
          subst hs
          refine ⟨⟨?_, ?_, ?_, ?_, ?_, ?_, ?_, ?_, ?_, ?_, ?_, ?_⟩, ?_⟩
          · simpa [heldChars, pendingRead, hd, he, hi] using hsplit
          · exact hciph
          · exact hsval
          · simpa [heldChars, tempChars] using hout
          · simpa [countedChars, hi] using hic
          · exact hoc
          · exact hw
          · exact hci
          · exact hco
          · right; left
            exact ⟨p.cur, by simp [he], rfl, by simp; omega, by simp [hcin], hein,
              by simpa [hd] using hdone, by simp [he]⟩
          · unfold EncPhase at henc ⊢
            cases hpc : p.encPc <;> simp [hpc, hd] at henc ⊢
            exact henc
          · simpa [OutPhase] using hop
          · simp [workLeft, pendingRead, hd, he, hi]
            omega
        · simp [he] at hs
          subst hs
          refine ⟨⟨?_, ?_, ?_, ?_, ?_, ?_, ?_, ?_, ?_, ?_, ?_, ?_⟩, ?_⟩
          · simpa [heldChars, pendingRead, hd, he, hi, readChars_fgetc] using hsplit
          · exact hciph
          · exact hsval
          · simpa [heldChars, tempChars] using hout
          · simpa [countedChars, hi] using hic
          · exact hoc
          · exact hw
          · exact hci
          · exact hco
          · right; left
            exact ⟨p.cur, by simp, rfl, by simp; omega, by simp [hcin], hein,
              by simpa [hd] using hdone, by simp [he, hd]⟩
          · unfold EncPhase at henc ⊢
            cases hpc : p.encPc <;> simp [hpc, hd] at henc ⊢
            exact henc
          · simpa [OutPhase] using hop
          · simp [workLeft, pendingRead, hd, he, hi, readChars_fgetc]
            omega
      · exact absurd hri hr
      · exact absurd hri hr

theorem bumpAll_append (h : histogram) (cs : List Int) (c : Int) :
    bumpAll h (cs ++ [c]) = (bumpAll h cs).bump c := by
  simp [bumpAll]

theorem inv_countInput (bufSize : Int) (X : List Int) (p q : Pipeline)
    (A A' D : List Int) (h : Inv bufSize X p A A' D) (hs : countInput p = some q) :
    Inv bufSize X q A A' D ∧ workLeft q + 1 = workLeft p := by
  obtain ⟨hsplit, hciph, hsval, hout, hic, hoc, hw, hci, hco, hin, henc, hop⟩ := h
  unfold countInput at hs
  by_cases hd : p.countInDone = true
  · simp [hd] at hs
  · by_cases hr : p.count_in = 0
    · simp [hd, hr] at hs
    · rcases hin with ⟨_, _, _, hcin, _⟩ | ⟨c, hi, hcnt, hri, hcin, hein, hdone, hrd⟩ |
        ⟨c, _, _, _, hcin, _⟩
      · exact absurd hcin hr
      · simp only [hd, hr, hi, countScan] at hs
        have hne : p.encPc ≠ EncPc.finished := by
          intro hf
          unfold EncPhase at henc
          simp [hf, hi] at henc
        by_cases he : c = EOF
        · subst he
          simp at hs
          subst hs
          refine ⟨⟨?_, ?_, ?_, ?_, ?_, ?_, ?_, ?_, ?_, ?_, ?_, ?_⟩, ?_⟩
          · simpa [heldChars, pendingRead, hi] using hsplit
          · exact hciph
          · exact hsval
          · simpa [heldChars, tempChars] using hout
          · simp [countedChars, hic, hi, bumpAll_append]
          · exact hoc
          · exact hw
          · exact hci
          · exact hco
          · right; right
            exact ⟨EOF, by simp, hcnt, hri, by simp [hcin], by simp [hein], by simp,
              hrd, hne⟩
          · unfold EncPhase at henc ⊢
            cases hpc : p.encPc <;> simp [hpc, hi] at henc ⊢
            exact henc
          · simpa [OutPhase] using hop
          · simp [workLeft, pendingRead, hi]
            omega
        · simp [he] at hs
          subst hs
          refine ⟨⟨?_, ?_, ?_, ?_, ?_, ?_, ?_, ?_, ?_, ?_, ?_, ?_⟩, ?_⟩
          · simpa [heldChars, pendingRead, hi] using hsplit
          · exact hciph
          · exact hsval
          · simpa [heldChars, tempChars] using hout
          · simp [countedChars, hic, hi, bumpAll_append]
          · exact hoc
          · exact hw
          · exact hci
          · exact hco
          · right; right
            exact ⟨c, by simp, hcnt, hri, by simp [hcin], by simp [hein],
              by simp [he, hdone], hrd, hne⟩
          · unfold EncPhase at henc ⊢
            cases hpc : p.encPc <;> simp [hpc, hi] at henc ⊢
            exact henc
          · simpa [OutPhase] using hop
          · simp [workLeft, pendingRead, hi]
            omega
      · exact absurd hcin hr

theorem encryptGuarded_total (c s : Int) (hs : s = 1 ∨ s = -1 ∨ s = 0) :
    ∃ c' s', encryptGuarded c s = some (c', s') ∧ (s' = 1 ∨ s' = -1 ∨ s' = 0)
      ∧ (c' = EOF ↔ c = EOF) := by
  cases hc : isLetter c with
  | false => exact ⟨c, s, encryptGuarded_of_not_letter c s hc, hs, Iff.rfl⟩
  | true =>
    refine ⟨shiftLetter c s, nextState s, encryptGuarded_letter c s hc hs, ?_, ?_⟩
    · rcases hs with rfl | rfl | rfl <;> decide
    · have h1 := (shiftLetter_same_case c s hc hs).2
      constructor
      · intro h
        rw [h] at h1
        exact absurd h1 (by decide)
      · intro h
        rw [h] at hc
        exact absurd hc (by decide)

theorem cipherStream_append (A A' : List Int) (s0 s c c' s' : Int)
    (h : cipherStream A s0 = some (A', s)) (hc : encryptGuarded c s = some (c', s')) :
    cipherStream (A ++ [c]) s0 = some (A' ++ [c'], s') := by
  induction A generalizing A' s0 with
  | nil =>
    simp [cipherStream] at h
    obtain ⟨rfl, rfl⟩ := h
    simp [cipherStream, hc]
  | cons a A ih =>
    rw [List.cons_append, cipherStream]
    rw [cipherStream] at h
    cases h1 : encryptGuarded a s0 with
    | none => simp [h1] at h
    | some r =>
      obtain ⟨a', s1⟩ := r
      simp only [h1] at h ⊢
      cases h2 : cipherStream A s1 with
      | none => simp [h2] at h
      | some r2 =>
        obtain ⟨out, sEnd⟩ := r2
        simp only [h2, Option.some.injEq, Prod.mk.injEq] at h
        obtain ⟨rfl, rfl⟩ := h
        simp [ih out s1 h2]

theorem inv_encryptInput (bufSize : Int) (hcap : bufSize ≠ 0) (X : List Int)
    (p q : Pipeline) (A A' D : List Int) (h : Inv bufSize X p A A' D)
    (hs : encryptInput p = some q) :
    ∃ B B', Inv bufSize X q B B' D ∧ workLeft q + 1 = workLeft p := by
  obtain ⟨hsplit, hciph, hsval, hout, hic, hoc, hw, hci, hco, hin, henc, hop⟩ := h
  unfold encryptInput at hs
  cases hpc : p.encPc with
  | finished => simp [hpc] at hs
  | waitIn =>
    simp only [hpc] at hs
    unfold encryptInputFirst at hs
    by_cases hr : p.encrypt_in = 0
    · simp [hr] at hs
    · rcases hin with ⟨_, _, _, _, hein, _⟩ | ⟨c, _, _, _, _, hein, _⟩ |
        ⟨c, hi, hcnt, hri, hcin, hein, hdone, hrd, hne⟩
      · exact absurd hein hr
      · exact absurd hein hr
      · obtain ⟨c', s', hg, hsv, hceof⟩ := encryptGuarded_total c p.s hsval
        simp [hr, hi, encryptScan, hg, hcnt, dequeue] at hs
        subst hs
        refine ⟨A ++ [c], A' ++ [c'], ?_⟩
        refine ⟨⟨?_, ?_, ?_, ?_, ?_, ?_, ?_, ?_, ?_, ?_, ?_, ?_⟩, ?_⟩
        · simpa [heldChars, pendingRead, hi] using hsplit
        · exact cipherStream_append A A' 1 p.s c c' s' hciph hg
        · exact hsv
        · simp [heldChars, tempChars, hpc] at hout ⊢
          rw [hout, List.append_assoc]
        · simpa [countedChars, hi] using hic
        · exact hoc
        · exact hw
        · exact hci
        · exact hco
        · left
          refine ⟨rfl, rfl, by simp [hri], hcin, by simp [hein], ?_⟩
          cases h1 : p.countInDone <;> cases h2 : p.readDone <;> simp_all
        · unfold EncPhase
          simp
          rw [hceof, hrd]
        · simp [OutPhase, hpc] at hop ⊢
          exact hop
        · simp [workLeft, pendingRead, hi, hpc]
          omega
  | waitOut =>
    simp only [hpc] at hs
    unfold encryptInputSecond at hs
    by_cases hr : p.encrypt_out = 0
    · simp [hr] at hs
    · unfold EncPhase at henc
      simp only [hpc] at henc
      obtain ⟨t, ht, hteof⟩ := henc
      rcases hop with ⟨hi, hcnt, heo, hcout, hwo, hcod, hwd, hne⟩ | ⟨c, _, _, heo, _⟩ |
        ⟨c, _, _, heo, _⟩ | ⟨_, _, heo, _⟩
      · have hq := enqueue_empty p.output_bufferq t.c hcnt (by omega)
        simp only [hr, ht, hq] at hs
        refine ⟨A, A', ?_⟩
        by_cases he : t.c = EOF
        · simp [he] at hs
          subst hs
          have hfin := hteof.mp he
          refine ⟨⟨?_, ?_, ?_, ?_, ?_, ?_, ?_, ?_, ?_, ?_, ?_, ?_⟩, ?_⟩
          · simpa [heldChars, pendingRead] using hsplit
          · exact hciph
          · exact hsval
          · simpa [heldChars, tempChars, hpc, ht, hi, he] using hout
          · exact hic
          · simpa [countedChars, hi] using hoc
          · exact hw
          · exact hci
          · exact hco
          · rcases hin with h0 | ⟨c, hi2, _⟩ | ⟨c, hi2, _⟩
            · left
              exact h0
            · simp [hfin.2] at hi2
            · simp [hfin.2] at hi2
          · unfold EncPhase
            simpa using hfin
          · right; left
            exact ⟨EOF, by simp [he], rfl, by simp [heo], by simp [hcout], hwo, hcod, hwd,
              by simp⟩
          · simp [workLeft, pendingRead, hi, hpc]
        · simp [he] at hs
          subst hs
          have hnf := fun h => he (hteof.mpr h)
          refine ⟨⟨?_, ?_, ?_, ?_, ?_, ?_, ?_, ?_, ?_, ?_, ?_, ?_⟩, ?_⟩
          · simpa [heldChars, pendingRead] using hsplit
          · exact hciph
          · exact hsval
          · simpa [heldChars, tempChars, hpc, ht, hi] using hout
          · exact hic
          · simpa [countedChars, hi] using hoc
          · exact hw
          · exact hci
          · exact hco
          · simpa [InPhase, hpc] using hin
          · unfold EncPhase
            simp
            intro hrd hitems
            exact hnf ⟨hrd, hitems⟩
          · right; left
            exact ⟨t.c, by simp, rfl, by simp [heo], by simp [hcout], hwo, hcod, hwd,
              by simp [he]⟩
          · simp [workLeft, pendingRead, hi, hpc]
      · exact absurd heo hr
      · exact absurd heo hr
      · exact absurd heo hr

theorem inv_countOutput (bufSize : Int) (X : List Int) (p q : Pipeline)
    (A A' D : List Int) (h : Inv bufSize X p A A' D) (hs : countOutput p = some q) :
    Inv bufSize X q A A' D ∧ workLeft q + 1 = workLeft p := by
  obtain ⟨hsplit, hciph, hsval, hout, hic, hoc, hw, hci, hco, hin, henc, hop⟩ := h
  unfold countOutput at hs
  by_cases hd : p.countOutDone = true
  · simp [hd] at hs
  · by_cases hr : p.count_out = 0
    · simp [hd, hr] at hs
    · rcases hop with ⟨_, _, _, hcout, _⟩ |
        ⟨c, hi, hcnt, heo, hcout, hwo, hcod, hwd, hfin⟩ | ⟨c, _, _, _, hcout, _⟩ |
        ⟨_, _, _, hcout, _⟩
      · exact absurd hcout hr
      · simp only [hd, hr, hi, countScan] at hs
        by_cases he : c = EOF
        · subst he
          simp at hs
          subst hs
          refine ⟨⟨?_, ?_, ?_, ?_, ?_, ?_, ?_, ?_, ?_, ?_, ?_, ?_⟩, ?_⟩
          · simpa [heldChars, pendingRead] using hsplit
          · exact hciph
          · exact hsval
          · simpa [heldChars, tempChars, hi] using hout
          · exact hic
          · simp [countedChars, hoc, hi, bumpAll_append]
          · exact hw
          · exact hci
          · exact hco
          · simpa [InPhase] using hin
          · simpa [EncPhase] using henc
          · right; right; left
            exact ⟨EOF, by simp, hcnt, heo, by simp [hcout], by simp [hwo], by simp, hwd,
              hfin⟩
          · simp [workLeft, pendingRead, hi]
        · simp [he] at hs
          subst hs
          refine ⟨⟨?_, ?_, ?_, ?_, ?_, ?_, ?_, ?_, ?_, ?_, ?_, ?_⟩, ?_⟩
          · simpa [heldChars, pendingRead] using hsplit
          · exact hciph
          · exact hsval
          · simpa [heldChars, tempChars, hi] using hout
          · exact hic
          · simp [countedChars, hoc, hi, bumpAll_append]
          · exact hw
          · exact hci
          · exact hco
          · simpa [InPhase] using hin
          · simpa [EncPhase] using henc
          · right; right; left
            exact ⟨c, by simp, hcnt, heo, by simp [hcout], by simp [hwo],
              by simp [he, hcod], hwd, hfin⟩
          · simp [workLeft, pendingRead, hi]
      · exact absurd hcout hr
      · exact absurd hcout hr

theorem inv_writeOutput (bufSize : Int) (X : List Int) (p q : Pipeline)
    (A A' D : List Int) (h : Inv bufSize X p A A' D) (hs : writeOutput p = some q) :
    ∃ E, Inv bufSize X q A A' E ∧ workLeft q + 1 = workLeft p := by
  obtain ⟨hsplit, hciph, hsval, hout, hic, hoc, hw, hci, hco, hin, henc, hop⟩ := h
  unfold writeOutput at hs
  by_cases hd : p.writeDone = true
  · simp [hd] at hs
  · by_cases hr : p.write_out = 0
    · simp [hd, hr] at hs
    · rcases hop with ⟨_, _, _, _, hwo, _⟩ | ⟨c, _, _, _, _, hwo, _⟩ |
        ⟨c, hi, hcnt, heo, hcout, hwo, hcod, hwd, hfin⟩ | ⟨_, _, _, _, hwo, _⟩
      · exact absurd hwo hr
      · exact absurd hwo hr
      · have hdq := dequeue_single p.output_bufferq _ hi hcnt
        simp only [hd, hr, hi] at hs
        refine ⟨D ++ [c], ?_⟩
        by_cases he : c = EOF
        · subst he
          simp [hdq] at hs
          subst hs
          refine ⟨⟨?_, ?_, ?_, ?_, ?_, ?_, ?_, ?_, ?_, ?_, ?_, ?_⟩, ?_⟩
          · simpa [heldChars, pendingRead] using hsplit
          · exact hciph
          · exact hsval
          · simpa [heldChars, tempChars, hi] using hout
          · exact hic
          · simpa [countedChars, hi] using hoc
          · simpa using hw
          · exact hci
          · exact hco
          · simpa [InPhase] using hin
          · simpa [EncPhase] using henc
          · right; right; right
            exact ⟨rfl, rfl, heo, hcout, by simp [hwo], hcod.mpr rfl, rfl, hfin.mpr rfl⟩
          · simp [workLeft, pendingRead, hi]
        · simp [he, hdq] at hs
          subst hs
          refine ⟨⟨?_, ?_, ?_, ?_, ?_, ?_, ?_, ?_, ?_, ?_, ?_, ?_⟩, ?_⟩
          · simpa [heldChars, pendingRead] using hsplit
          · exact hciph
          · exact hsval
          · simpa [heldChars, tempChars, hi] using hout
          · exact hic
          · simpa [countedChars, hi] using hoc
          · simp [hw, he]
          · exact hci
          · exact hco
          · simpa [InPhase] using hin
          · simpa [EncPhase] using henc
          · left
            refine ⟨rfl, rfl, by simp [heo], hcout, by simp [hwo], ?_, by simp [hd], ?_⟩
            · cases h1 : p.countOutDone
              · rfl
              · exact absurd (hcod.mp h1) he
            · exact fun h => he (hfin.mp h)
          · simp [workLeft, pendingRead, hi]
      · exact absurd hwo hr

theorem inv_step (bufSize : Int) (hcap : bufSize ≠ 0) (X : List Int) (p q : Pipeline)
    (t : Stage) (hs : step t p = some q)
    (h : ∃ A A' D, Inv bufSize X p A A' D) :
    (∃ A A' D, Inv bufSize X q A A' D) ∧ workLeft q + 1 = workLeft p := by
  obtain ⟨A, A', D, h⟩ := h
  cases t with
  | read =>
    have hq := inv_readInput bufSize hcap X p q A A' D h hs
    exact ⟨⟨A, A', D, hq.1⟩, hq.2⟩
  | countIn =>
    have hq := inv_countInput bufSize X p q A A' D h hs
    exact ⟨⟨A, A', D, hq.1⟩, hq.2⟩
  | encrypt =>
    obtain ⟨B, B', hq⟩ := inv_encryptInput bufSize hcap X p q A A' D h hs
    exact ⟨⟨B, B', D, hq.1⟩, hq.2⟩
  | countOut =>
    have hq := inv_countOutput bufSize X p q A A' D h hs
    exact ⟨⟨A, A', D, hq.1⟩, hq.2⟩
  | write =>
    obtain ⟨E, hq⟩ := inv_writeOutput bufSize X p q A A' D h hs
    exact ⟨⟨A, A', E, hq.1⟩, hq.2⟩

theorem inv_reachable (bufSize : Int) (hcap : bufSize ≠ 0) (file : List Nat) (p : Pipeline)
    (hr : Reachable (initPipeline bufSize file) p) :
    ∃ A A' D, Inv bufSize (readChars file) p A A' D := by
  induction hr with
  | refl => exact ⟨[], [], [], inv_init bufSize file⟩
  | tail q r t _ hs ih => exact (inv_step bufSize hcap _ q r t hs ih).1

/-! ## What the completed pipeline has done, under every schedule -/

theorem readChars_eq (file : List Nat) : readChars file = streamChars file ++ [EOF] := by
  induction file with
  | nil => rfl
  | cons b rest ih =>
    by_cases h : toChar (b : Int) = EOF
    · simp [readChars, streamChars, List.takeWhile_cons, h]
    · simp only [streamChars] at ih
      simp [readChars, streamChars, List.takeWhile_cons, h, ih]

theorem EOF_not_mem_streamChars (file : List Nat) : EOF ∉ streamChars file := by
  intro h
  simp only [streamChars, List.mem_map] at h
  obtain ⟨b, hb, he⟩ := h
  have := List.mem_takeWhile_imp hb
  simp at this
  exact this he

theorem cipherOut_eq (cs : List Int) : cipherOut cs = cycleCipher 0 cs := by
  have h := cipherStream_eq_cycleCipher cs 0
  have h1 : stateAt 0 = 1 := rfl
  rw [h1] at h
  simp [cipherOut, h]

theorem EOF_not_mem_cycleCipher (cs : List Int) (k : Nat) (h : EOF ∉ cs) :
    EOF ∉ cycleCipher k cs := by
  induction cs generalizing k with
  | nil => simp [cycleCipher]
  | cons c cs ih =>
    have hc : c ≠ EOF := fun e => h (by simp [e])
    have hcs : EOF ∉ cs := fun e => h (by simp [e])
    cases hl : isLetter c with
    | false =>
      simp only [cycleCipher, hl, Bool.false_eq_true, if_false, List.mem_cons, not_or]
      exact ⟨fun e => hc e.symm, ih k hcs⟩
    | true =>
      simp only [cycleCipher, hl, if_true, List.mem_cons, not_or]
      refine ⟨fun e => ?_, ih (k + 1) hcs⟩
      have h1 := (shiftLetter_same_case c (stateAt k) hl (stateAt_cases k)).2
      rw [← e] at h1
      exact absurd h1 (by decide)

theorem cipherStream_sentinel (cs out : List Int) (s : Int)
    (h : cipherStream (cs ++ [EOF]) 1 = some (out, s)) :
    out = cipherOut cs ++ [EOF] := by
  have h0 := cipherStream_eq_cycleCipher cs 0
  have h1 : stateAt 0 = 1 := rfl
  rw [h1] at h0
  have h2 := cipherStream_append cs _ 1 _ EOF EOF _ h0
    (encryptGuarded_of_not_letter EOF _ (by decide))
  rw [h2] at h
  simp only [Option.some.injEq, Prod.mk.injEq] at h
  rw [cipherOut_eq, ← h.1]

/-- Under every schedule of the five threads, with a buffer size of at least 1: when all
five threads have left their loops, the output file holds the cipher of the stream in
front of the sentinel, and the histograms have been incremented once for each character
of the stream and of its cipher, the sentinel included. -/
theorem pipeline_result (bufSize : Int) (hcap : 1 ≤ bufSize) (file : List Nat)
    (p : Pipeline) (hr : Reachable (initPipeline bufSize file) p)
    (hc : p.completed = true) :
    p.outFile = (cipherOut (streamChars file)).map toByte
    ∧ p.inputCount = bumpAll emptyHistogram (streamChars file ++ [EOF])
    ∧ p.outputCount = bumpAll emptyHistogram (cipherOut (streamChars file) ++ [EOF]) := by
  obtain ⟨A, A', D, hsplit, hciph, hsval, hout, hic, hoc, hw, hci, hco, hin, henc, hop⟩ :=
    inv_reachable bufSize (by omega) file p hr
  simp only [Pipeline.completed, Bool.and_eq_true, decide_eq_true_eq] at hc
  obtain ⟨⟨⟨⟨hrd, hcid⟩, hpc⟩, hcod⟩, hwd⟩ := hc
  unfold EncPhase at henc
  simp only [hpc] at henc
  have hA : readChars file = A := by
    simpa [heldChars, pendingRead, henc.2, hrd] using hsplit
  have hD : A' = D := by
    rcases hop with ⟨_, _, _, _, _, _, h, _⟩ | ⟨c, _, _, _, _, _, _, h, _⟩ |
      ⟨c, _, _, _, _, _, _, h, _⟩ | ⟨hi, _⟩
    · simp [hwd] at h
    · simp [hwd] at h
    · simp [hwd] at h
    · simpa [heldChars, tempChars, hi, hpc] using hout
  have hoi : p.output_bufferq.items = [] := by
    rcases hop with ⟨hi, _⟩ | ⟨c, _, _, _, _, _, _, h, _⟩ |
      ⟨c, _, _, _, _, _, _, h, _⟩ | ⟨hi, _⟩
    · exact hi
    · simp [hwd] at h
    · simp [hwd] at h
    · exact hi
  subst hD
  rw [← hA, readChars_eq] at hciph hic
  have hA' := cipherStream_sentinel _ _ _ hciph
  have hno := EOF_not_mem_cycleCipher (streamChars file) 0 (EOF_not_mem_streamChars file)
  rw [← cipherOut_eq] at hno
  refine ⟨?_, ?_, ?_⟩
  · rw [hw, hA', List.filter_append]
    have h1 : (cipherOut (streamChars file)).filter (fun c => decide (c ≠ EOF))
        = cipherOut (streamChars file) := by
      apply List.filter_eq_self.mpr
      intro a ha
      simp only [decide_eq_true_eq]
      exact fun e => hno (e ▸ ha)
    rw [h1]
    simp
  · simpa [countedChars, henc.2] using hic
  · simpa [countedChars, hoi, hA'] using hoc

/-! ## The sums of the histograms -/

theorem incrAt_length (l : List Nat) (i : Nat) : (incrAt l i).length = l.length := by
  induction l generalizing i with
  | nil => rfl
  | cons x xs ih => cases i <;> simp [incrAt, ih]

theorem incrAt_sum (l : List Nat) (i : Nat) (h : i < l.length) :
    (incrAt l i).sum = l.sum + 1 := by
  induction l generalizing i with
  | nil => simp at h
  | cons x xs ih =>
    cases i with
    | zero => simp [incrAt]; omega
    | succ i =>
      have hi : i < xs.length := by simpa using h
      simp [incrAt, ih i hi]
      omega

/-- The characters whose increment lands inside the 255 declared entries. -/
theorem bump_total (h : histogram) (c : Int) (hl : h.cells.length = 255) :
    (h.bump c).cells.length = 255
    ∧ (h.bump c).total = h.total + (if 0 ≤ c ∧ c < 255 then 1 else 0)
    ∧ (h.bump c).stray = h.stray ++ (if 0 ≤ c ∧ c < 255 then [] else [c]) := by
  unfold histogram.bump histogram.total
  by_cases hc : 0 ≤ c ∧ c < 255
  · have hi : c.toNat < h.cells.length := by omega
    simp [hc, incrAt_length, hl, incrAt_sum h.cells c.toNat hi]
  · simp [hc, hl]

theorem bumpAll_total (h : histogram) (cs : List Int) (hl : h.cells.length = 255) :
    (bumpAll h cs).cells.length = 255
    ∧ (bumpAll h cs).total
        = h.total + (cs.filter (fun c => decide (0 ≤ c ∧ c < 255))).length
    ∧ (bumpAll h cs).stray
        = h.stray ++ cs.filter (fun c => !decide (0 ≤ c ∧ c < 255)) := by
  induction cs generalizing h with
  | nil => simp [bumpAll, hl]
  | cons c cs ih =>
    have hb := bump_total h c hl
    have := ih (h.bump c) hb.1
    simp only [bumpAll, List.foldl_cons] at this ⊢
    refine ⟨this.1, ?_, ?_⟩
    · rw [this.2.1, hb.2.1]
      by_cases hc : 0 ≤ c ∧ c < 255
      · simp [List.filter_cons, hc]
        omega
      · simp [List.filter_cons, hc]
    · rw [this.2.2, hb.2.2]
      by_cases hc : 0 ≤ c ∧ c < 255
      · simp [List.filter_cons, hc]
      · have hc' : c < 0 ∨ 255 ≤ c := by omega
        simp [List.filter_cons, hc, hc']

theorem emptyHistogram_facts :
    emptyHistogram.cells.length = 255 ∧ emptyHistogram.total = 0
    ∧ emptyHistogram.stray = [] := by
  refine ⟨List.length_replicate 255 0, ?_, rfl⟩
  simp only [emptyHistogram, histogram.total, List.sum_replicate, smul_zero]

theorem streamChars_length_le (file : List Nat) : (streamChars file).length ≤ file.length := by
  simp only [streamChars, List.length_map]
  exact (List.takeWhile_sublist _).length_le

theorem cipherOut_length (cs : List Int) : (cipherOut cs).length = cs.length := by
  rw [cipherOut_eq, cycleCipher_length]

/-- Under every schedule, with a buffer size of at least 1: when all five threads have
left their loops, the increment for the sentinel has gone to index `-1` on both sides,
and the sum of the entries of each histogram is the number of counted characters that lie
in `0 .. 254`, which is at most the length of the input and never that length plus one. -/
theorem pipeline_histogram_totals (bufSize : Int) (hcap : 1 ≤ bufSize) (file : List Nat)
    (p : Pipeline) (hr : Reachable (initPipeline bufSize file) p)
    (hc : p.completed = true) :
    p.inputCount.total
      = ((streamChars file).filter (fun c => decide (0 ≤ c ∧ c < 255))).length
    ∧ p.outputCount.total
      = ((cipherOut (streamChars file)).filter (fun c => decide (0 ≤ c ∧ c < 255))).length
    ∧ p.inputCount.total ≤ file.length ∧ p.outputCount.total ≤ file.length
    ∧ EOF ∈ p.inputCount.stray ∧ EOF ∈ p.outputCount.stray := by
  obtain ⟨_, h1, h2⟩ := pipeline_result bufSize hcap file p hr hc
  have hi := bumpAll_total emptyHistogram (streamChars file ++ [EOF]) emptyHistogram_facts.1
  have ho := bumpAll_total emptyHistogram (cipherOut (streamChars file) ++ [EOF])
    emptyHistogram_facts.1
  rw [← h1] at hi
  rw [← h2] at ho
  have e0 : emptyHistogram.total = 0 := emptyHistogram_facts.2.1
  have hti : p.inputCount.total
      = ((streamChars file).filter (fun c => decide (0 ≤ c ∧ c < 255))).length := by
    rw [hi.2.1, e0]
    simp [List.filter_append, EOF]
  have hto : p.outputCount.total
      = ((cipherOut (streamChars file)).filter (fun c => decide (0 ≤ c ∧ c < 255))).length := by
    rw [ho.2.1, e0]
    simp [List.filter_append, EOF]
  refine ⟨hti, hto, ?_, ?_, ?_, ?_⟩
  · rw [hti]
    exact le_trans (List.length_filter_le _ _) (streamChars_length_le file)
  · rw [hto]
    refine le_trans (List.length_filter_le _ _) ?_
    rw [cipherOut_length]
    exact streamChars_length_le file
  · rw [hi.2.2, emptyHistogram_facts.2.2]
    simp [List.filter_append, EOF]
  · rw [ho.2.2, emptyHistogram_facts.2.2]
    simp [List.filter_append, EOF]

/-! ## No deadlock, and the run to completion -/

theorem firstStep_some (p q : Pipeline) (h : firstStep p = some q) :
    ∃ t, step t p = some q := by
  unfold firstStep at h
  cases h1 : readInput p with
  | some r => rw [h1] at h; exact ⟨Stage.read, by simpa [step, h1] using h⟩
  | none =>
    cases h2 : countInput p with
    | some r => simp only [h1, h2] at h; exact ⟨Stage.countIn, by simpa [step, h2] using h⟩
    | none =>
      cases h3 : encryptInput p with
      | some r =>
        simp only [h1, h2, h3] at h
        exact ⟨Stage.encrypt, by simpa [step, h3] using h⟩
      | none =>
        cases h4 : countOutput p with
        | some r =>
          simp only [h1, h2, h3, h4] at h
          exact ⟨Stage.countOut, by simpa [step, h4] using h⟩
        | none =>
          simp only [h1, h2, h3, h4] at h
          exact ⟨Stage.write, by simpa [step] using h⟩

theorem firstStep_none (p : Pipeline) (h : firstStep p = none) (t : Stage) :
    step t p = none := by
  unfold firstStep at h
  cases h1 : readInput p with
  | some r => simp [h1] at h
  | none =>
    cases h2 : countInput p with
    | some r => simp [h1, h2] at h
    | none =>
      cases h3 : encryptInput p with
      | some r => simp [h1, h2, h3] at h
      | none =>
        cases h4 : countOutput p with
        | some r => simp [h1, h2, h3, h4] at h
        | none =>
          simp only [h1, h2, h3, h4] at h
          cases t <;> simp [step, h1, h2, h3, h4, h]

theorem readInput_enabled (p : Pipeline) (h1 : p.readDone = false) (h2 : p.read_in ≠ 0) :
    ∃ q, readInput p = some q := by
  unfold readInput
  simp only [h1, h2, Bool.false_eq_true, if_false]
  split
  · split
    · exact ⟨_, rfl⟩
    · exact ⟨_, rfl⟩
  · exact ⟨_, rfl⟩

theorem countInput_enabled (p : Pipeline) (h1 : p.countInDone = false)
    (h2 : p.count_in ≠ 0) : ∃ q, countInput p = some q := by
  unfold countInput
  simp only [h1, h2, Bool.false_eq_true, if_false]
  split
  · exact ⟨_, rfl⟩
  · split
    · exact ⟨_, rfl⟩
    · exact ⟨_, rfl⟩

theorem countOutput_enabled (p : Pipeline) (h1 : p.countOutDone = false)
    (h2 : p.count_out ≠ 0) : ∃ q, countOutput p = some q := by
  unfold countOutput
  simp only [h1, h2, Bool.false_eq_true, if_false]
  split
  · exact ⟨_, rfl⟩
  · split
    · exact ⟨_, rfl⟩
    · exact ⟨_, rfl⟩

theorem writeOutput_enabled (p : Pipeline) (n : node) (h1 : p.writeDone = false)
    (h2 : p.write_out ≠ 0) (h3 : p.output_bufferq.items = [n]) :
    ∃ q, writeOutput p = some q := by
  unfold writeOutput
  simp only [h1, h2, h3, Bool.false_eq_true, if_false]
  split
  · split
    · exact ⟨_, rfl⟩
    · exact ⟨_, rfl⟩
  · exact ⟨_, rfl⟩

theorem encryptInputSecond_enabled (p : Pipeline) (t : node) (h1 : p.encrypt_out ≠ 0)
    (h2 : p.temp = some t) : ∃ q, encryptInputSecond p = some q := by
  unfold encryptInputSecond
  simp only [h1, h2, if_false]
  split
  · exact ⟨_, rfl⟩
  · exact ⟨_, rfl⟩

theorem encryptInputFirst_enabled (p : Pipeline) (c : Int) (h1 : p.encrypt_in ≠ 0)
    (h2 : p.input_bufferq.items = [{ c := c, counted := 1, encrypted := 0 }])
    (h3 : p.s = 1 ∨ p.s = -1 ∨ p.s = 0) : ∃ q, encryptInputFirst p = some q := by
  obtain ⟨c', s', hg, _, _⟩ := encryptGuarded_total c p.s h3
  unfold encryptInputFirst
  simp only [h1, h2, encryptScan, hg, if_false]
  simp
  split
  · exact ⟨_, rfl⟩
  · exact ⟨_, rfl⟩

theorem output_side_enabled (p : Pipeline) (hop : OutPhase p) (hpc : p.encPc ≠ EncPc.waitIn)
    (henc : p.encPc = EncPc.waitOut → ∃ t, p.temp = some t)
    (hnc : p.writeDone = false) : ∃ t q, step t p = some q := by
  rcases hop with ⟨hi, hcnt, heo, hcout, hwo, hcod, hwd, hne⟩ |
    ⟨c, hi, hcnt, heo, hcout, hwo, hcod, hwd, hfin⟩ |
    ⟨c, hi, hcnt, heo, hcout, hwo, hcod, hwd, hfin⟩ | ⟨_, _, _, _, _, _, hwd, _⟩
  · cases hp : p.encPc with
    | waitIn => exact absurd hp hpc
    | finished => exact absurd hp hne
    | waitOut =>
      obtain ⟨t, ht⟩ := henc hp
      obtain ⟨q, hq⟩ := encryptInputSecond_enabled p t (by omega) ht
      exact ⟨Stage.encrypt, q, by simp [step, encryptInput, hp, hq]⟩
  · obtain ⟨q, hq⟩ := countOutput_enabled p hcod (by omega)
    exact ⟨Stage.countOut, q, hq⟩
  · obtain ⟨q, hq⟩ := writeOutput_enabled p _ hwd (by omega) hi
    exact ⟨Stage.write, q, hq⟩
  · rw [hwd] at hnc
    exact absurd hnc (by decide)

theorem progress (bufSize : Int) (X : List Int) (p : Pipeline) (A A' D : List Int)
    (h : Inv bufSize X p A A' D) (hnc : p.completed = false) :
    ∃ t q, step t p = some q := by
  obtain ⟨hsplit, hciph, hsval, hout, hic, hoc, hw, hci, hco, hin, henc, hop⟩ := h
  have hwd : p.writeDone = false := by
    cases hw' : p.writeDone with
    | false => rfl
    | true =>
      rcases hop with ⟨_, _, _, _, _, _, h, _⟩ | ⟨c, _, _, _, _, _, _, h, _⟩ |
        ⟨c, _, _, _, _, _, _, h, _⟩ | ⟨_, _, _, _, _, hcod, _, hfin⟩
      · simp [hw'] at h
      · simp [hw'] at h
      · simp [hw'] at h
      · unfold EncPhase at henc
        simp only [hfin] at henc
        rcases hin with ⟨_, _, _, _, _, hd⟩ | ⟨c, hi, _⟩ | ⟨c, hi, _⟩
        · simp [Pipeline.completed, hw', hcod, hfin, henc.1, hd] at hnc
        · simp [henc.2] at hi
        · simp [henc.2] at hi
  have htemp : p.encPc = EncPc.waitOut → ∃ t, p.temp = some t := by
    intro hp
    unfold EncPhase at henc
    simp only [hp] at henc
    obtain ⟨t, ht, _⟩ := henc
    exact ⟨t, ht⟩
  rcases hin with ⟨hi, hcnt, hri, hcin, hein, hdone⟩ |
    ⟨c, hi, hcnt, hri, hcin, hein, hdone, hrd⟩ |
    ⟨c, hi, hcnt, hri, hcin, hein, hdone, hrd, hne⟩
  · cases hr : p.readDone with
    | false =>
      obtain ⟨q, hq⟩ := readInput_enabled p hr (by omega)
      exact ⟨Stage.read, q, hq⟩
    | true =>
      refine output_side_enabled p hop ?_ htemp hwd
      intro hp
      unfold EncPhase at henc
      simp only [hp] at henc
      exact henc hr hi
  · obtain ⟨q, hq⟩ := countInput_enabled p hdone (by omega)
    exact ⟨Stage.countIn, q, hq⟩
  · cases hp : p.encPc with
    | waitIn =>
      obtain ⟨q, hq⟩ := encryptInputFirst_enabled p c (by omega) hi hsval
      exact ⟨Stage.encrypt, q, by simp [step, encryptInput, hp, hq]⟩
    | waitOut => exact output_side_enabled p hop (by simp [hp]) htemp hwd
    | finished => exact absurd hp hne

theorem firstStep_progress (bufSize : Int) (X : List Int) (p : Pipeline) (A A' D : List Int)
    (h : Inv bufSize X p A A' D) (hnc : p.completed = false) :
    ∃ q, firstStep p = some q := by
  cases hf : firstStep p with
  | some q => exact ⟨q, rfl⟩
  | none =>
    obtain ⟨t, q, hq⟩ := progress bufSize X p A A' D h hnc
    rw [firstStep_none p hf t] at hq
    exact absurd hq (by simp)

theorem reachable_trans (p q r : Pipeline) (h1 : Reachable p q) (h2 : Reachable q r) :
    Reachable p r := by
  induction h2 with
  | refl => exact h1
  | tail a b t _ hs ih => exact Reachable.tail a b t ih hs

theorem runPipeline_completes (bufSize : Int) (hcap : 1 ≤ bufSize) (X : List Int)
    (fuel : Nat) (p : Pipeline) (h : ∃ A A' D, Inv bufSize X p A A' D)
    (hf : workLeft p ≤ fuel) :
    (runPipeline fuel p).completed = true ∧ Reachable p (runPipeline fuel p) := by
  induction fuel generalizing p with
  | zero =>
    simp only [runPipeline]
    refine ⟨?_, Reachable.refl⟩
    cases hc : p.completed with
    | true => rfl
    | false =>
      obtain ⟨A, A', D, hinv⟩ := h
      obtain ⟨t, q, hq⟩ := progress bufSize X p A A' D hinv hc
      have := (inv_step bufSize (by omega) X p q t hq ⟨A, A', D, hinv⟩).2
      omega
  | succ fuel ih =>
    cases hc : p.completed with
    | true =>
      cases hfs : firstStep p with
      | none => simp [runPipeline, hfs, hc, Reachable.refl]
      | some q =>
        obtain ⟨t, hq⟩ := firstStep_some p q hfs
        have hstep := inv_step bufSize (by omega) X p q t hq h
        have hrec := ih q hstep.1 (by omega)
        simp only [runPipeline, hfs]
        exact ⟨hrec.1, reachable_trans p q _ (Reachable.tail p q t Reachable.refl hq) hrec.2⟩
    | false =>
      obtain ⟨A, A', D, hinv⟩ := h
      obtain ⟨q, hfs⟩ := firstStep_progress bufSize X p A A' D hinv hc
      obtain ⟨t, hq⟩ := firstStep_some p q hfs
      have hstep := inv_step bufSize (by omega) X p q t hq ⟨A, A', D, hinv⟩
      have hrec := ih q hstep.1 (by omega)
      simp only [runPipeline, hfs]
      exact ⟨hrec.1, reachable_trans p q _ (Reachable.tail p q t Reachable.refl hq) hrec.2⟩

theorem workLeft_init (bufSize : Int) (file : List Nat) :
    workLeft (initPipeline bufSize file) ≤ 6 * (file.length + 1) := by
  have h1 : workLeft (initPipeline bufSize file) = 6 * (readChars file).length := by
    simp [workLeft, initPipeline, pendingRead, initQueue, readChars_fgetc]
  rw [h1, readChars_eq]
  have := streamChars_length_le file
  simp
  omega

/-- With a buffer size of at least 1 and any input file, the program run with the first
thread that can move at each step comes, within `6 * (length + 1)` steps, to the state in
which all five threads have left their loops; the output file then holds the cipher of
the stream in front of the sentinel (the bytes in front of the first `0xFF`). -/
theorem pipeline_run (bufSize : Int) (hcap : 1 ≤ bufSize) (file : List Nat) :
    (runPipeline (6 * (file.length + 1)) (initPipeline bufSize file)).completed = true
    ∧ (runPipeline (6 * (file.length + 1)) (initPipeline bufSize file)).outFile
        = (cipherOut (streamChars file)).map toByte := by
  have h := runPipeline_completes bufSize hcap (readChars file) (6 * (file.length + 1))
    (initPipeline bufSize file) ⟨[], [], [], inv_init bufSize file⟩
    (workLeft_init bufSize file)
  exact ⟨h.1, (pipeline_result bufSize hcap file _ h.2 h.1).1⟩

theorem streamChars_plain (file : List Nat) (h : ∀ b ∈ file, b < 255) :
    streamChars file = file.map (fun (b : Nat) => toChar (b : Int))
    ∧ ∀ b ∈ file, toByte (toChar (b : Int)) = b := by
  have hne : ∀ b ∈ file, toChar (b : Int) ≠ EOF := by
    intro b hb
    have := h b hb
    unfold toChar EOF
    omega
  refine ⟨?_, ?_⟩
  · unfold streamChars
    rw [List.takeWhile_eq_self_iff.mpr]
    intro b hb
    simpa using hne b hb
  · intro b hb
    have := h b hb
    unfold toByte toChar
    omega

/-- For an input file without the byte `0xFF` and a buffer size of at least 1, the run to
completion writes as many bytes as it read, the cipher of the input in order. -/
theorem pipeline_run_plain (bufSize : Int) (hcap : 1 ≤ bufSize) (file : List Nat)
    (h : ∀ b ∈ file, b < 255) :
    (runPipeline (6 * (file.length + 1)) (initPipeline bufSize file)).completed = true
    ∧ (runPipeline (6 * (file.length + 1)) (initPipeline bufSize file)).outFile
        = (cipherOut (file.map (fun (b : Nat) => toChar (b : Int)))).map toByte
    ∧ (runPipeline (6 * (file.length + 1)) (initPipeline bufSize file)).outFile.length
        = file.length := by
  have hr := pipeline_run bufSize hcap file
  rw [(streamChars_plain file h).1] at hr
  refine ⟨hr.1, hr.2, ?_⟩
  rw [hr.2, List.length_map, cipherOut_length, List.length_map]

/-! ## At most one node in each queue -/

theorem runSchedule_reachable (sched : List Stage) (p : Pipeline) :
    Reachable p (runSchedule sched p) := by
  induction sched generalizing p with
  | nil => exact Reachable.refl
  | cons t ts ih =>
    simp only [runSchedule]
    cases hs : step t p with
    | none => exact ih p
    | some q =>
      exact reachable_trans p q _ (Reachable.tail p q t Reachable.refl hs) (ih q)

/-- C13, at the input file of the single byte `0xC8` with buffer size 1: the program runs
to completion; `countInput` and `countOutput` are each asked to count the character
`-56` (the byte as a `char`) and the sentinel `-1`, and both increments are made at an
index outside `0 .. 254`: the out-of-range branch of the indexing is taken, for the
sentinel on every run. -/
theorem histogram_index_out_of_range :
    (runPipeline 100 (initPipeline 1 [200])).completed = true
    ∧ (runPipeline 100 (initPipeline 1 [200])).inputCount.stray = [-56, -1]
    ∧ (runPipeline 100 (initPipeline 1 [200])).outputCount.stray = [-56, -1]
    ∧ toChar 200 = -56
    ∧ ¬ (0 ≤ EOF ∧ EOF < 255)
    ∧ (emptyHistogram.bump EOF).stray = [EOF] := by
  set_option maxRecDepth 100000 in decide

end P2
